import Mathlib

/-!
Verification of the code indexer in `gitbook-mcp.py` against its
natural-language specification.  The Python source is shallowly embedded:
pure helpers become Lean functions, the mutable `CodeIndexer` state becomes
an explicit `IndexerState` record threaded through the operations, and the
Python `ast` module's node shapes are modelled by small inductive types.
-/

namespace GitbookMcp

/-! ## Basic string helpers mirroring Python built-ins -/

/-- Python truthiness of an `Optional[str]`: `None` and `""` are falsy. -/
def pyTruthy : Option String → Bool
  | none => false
  | some s => s ≠ ""

/-- Python `str.lower()` (ASCII approximation, which covers identifiers and
the source text the indexer handles). -/
def toLowerStr (s : String) : String := String.mk (s.data.map Char.toLower)

/-- Python `needle in hay` substring test on character lists. -/
def listIsInfix (needle : List Char) : List Char → Bool
  | [] => needle.isPrefixOf []
  | c :: rest => needle.isPrefixOf (c :: rest) || listIsInfix needle rest

/-- Python `needle in hay` on strings. -/
def strContainsStr (hay needle : String) : Bool := listIsInfix needle.data hay.data

/-- Split a character list at every occurrence of `sep` (the list of parts
is never empty; splitting the empty list yields one empty part, like
Python `str.split(sep)`). -/
def splitOnChar (sep : Char) : List Char → List (List Char)
  | [] => [[]]
  | c :: rest =>
    match splitOnChar sep rest with
    | [] => [[]]
    | cur :: others =>
      if c = sep then [] :: cur :: others else (c :: cur) :: others

def strSplitOn (s : String) (sep : Char) : List String :=
  (splitOnChar sep s.data).map String.mk

/-- Python `str.splitlines()` restricted to `\n` separators: splitting on
newline, with no empty trailing entry (so `""` has zero lines and a final
newline does not create an extra line). -/
def splitlines (s : String) : List String :=
  let parts := strSplitOn s '\n'
  if parts.getLast? = some "" then parts.dropLast else parts

/-- Python `"\n".join(lines)`. -/
def joinNL (lines : List String) : String :=
  match lines with
  | [] => ""
  | first :: rest => rest.foldl (fun acc l => acc ++ "\n" ++ l) first

/-- Python list slice `l[a:b]` for `0 ≤ a ≤ b` (clamping as Python does). -/
def pySlice {α : Type} (l : List α) (a b : Nat) : List α := (l.drop a).take (b - a)

/-- Python `os.path.basename` for forward-slash paths. -/
def pathBasename (p : String) : String := (strSplitOn p '/').getLastD ""

/-- Root part of Python `os.path.splitext` applied to a basename: drop the
final dot-suffix unless the name consists only of leading dots up to that
final dot (so `".py"` keeps its extension, `"a.b.py"` becomes `"a.b"`). -/
def splitextRoot (f : String) : String :=
  let cs := f.data
  match cs.findIdx? (fun c => c ≠ '.') with
  | none => f
  | some firstNonDot =>
    let lastDot := cs.length - 1 - (cs.reverse.findIdx (fun c => c = '.'))
    if (cs.contains '.') && firstNonDot < lastDot then
      String.mk (cs.take lastDot)
    else f

/-! ## Association lists modelling Python `dict` (insertion ordered,
overwriting an existing key in place). -/

/-- Python `d[k] = v`: overwrite in place if the key exists (keeping its
position), otherwise append. -/
def dictInsert {α : Type} (d : List (String × α)) (k : String) (v : α) :
    List (String × α) :=
  if d.any (fun p => p.1 = k) then
    d.map (fun p => if p.1 = k then (k, v) else p)
  else d ++ [(k, v)]

/-- Python `d.get(k)`. -/
def dictGet {α : Type} (d : List (String × α)) (k : String) : Option α :=
  (d.find? (fun p => p.1 = k)).map (fun p => p.2)

/-- Python `d.values()` in insertion order. -/
def dictValues {α : Type} (d : List (String × α)) : List α := d.map (fun p => p.2)

/-- Python `list(d)` (the keys) in insertion order. -/
def dictKeys {α : Type} (d : List (String × α)) : List String := d.map (fun p => p.1)

/-! ## The fragment of `re` used by `_find_python_files`

The source calls `re.match(pattern.replace('*', '.*'), name)`.  After the
replacement, the regexes that can arise consist of literal characters, the
wildcard `.` (which in Python matches any character except a newline), and
`.*`/`c*` star repetitions.  `re.match` anchors at the start of the string
only, so a match of any prefix succeeds. -/

inductive RAtom : Type where
  | anyChar : RAtom
  | lit : Char → RAtom
deriving DecidableEq, Repr

inductive RTerm : Type where
  | once : RAtom → RTerm
  | star : RAtom → RTerm
deriving DecidableEq, Repr

def atomMatch : RAtom → Char → Bool
  | .anyChar, c => c ≠ '\n'
  | .lit l, c => l = c

def charAtom (c : Char) : RAtom := if c = '.' then .anyChar else .lit c

def parseRegex : List Char → List RTerm
  | [] => []
  | c :: '*' :: rest => .star (charAtom c) :: parseRegex rest
  | c :: rest => .once (charAtom c) :: parseRegex rest

/-- Does the term list match some prefix of the string (the semantics of an
anchored `re.match` that need not consume the whole input)? -/
def rmatch : List RTerm → List Char → Bool
  | [], _ => true
  | .once _ :: _, [] => false
  | .once a :: ts, c :: s => atomMatch a c && rmatch ts s
  | .star a :: ts, s =>
      rmatch ts s ||
        (match s with
         | [] => false
         | c :: s' => atomMatch a c && rmatch (.star a :: ts) s')
termination_by ts s => (s.length, ts.length)

/-- Replace every occurrence of `'*'` by `".*"` in a character list. -/
def replaceStar : List Char → List Char
  | [] => []
  | '*' :: rest => '.' :: '*' :: replaceStar rest
  | c :: rest => c :: replaceStar rest

/-- Python `pattern.replace('*', '.*')` from `_find_python_files` (the pattern
being a single character, occurrences cannot overlap). -/
def translatePattern (p : String) : String := String.mk (replaceStar p.data)

/-- Python `re.match(pattern.replace('*', '.*'), name)` viewed as a Boolean. -/
def matchesPattern (pattern name : String) : Bool :=
  rmatch (parseRegex (translatePattern pattern).data) name.data

/-- Default `exclude_patterns` from `CodeIndexer.__init__`. -/
def defaultExcludePatterns : List String := ["__pycache__", "*.pyc", ".*", "venv", "env"]

/-- Python `exclude_patterns or [...]` from `CodeIndexer.__init__` (an explicit empty
list is falsy in Python and also selects the defaults). -/
def initExcludePatterns : Option (List String) → List String
  | none => defaultExcludePatterns
  | some ps => if ps = [] then defaultExcludePatterns else ps

/-- Python `any(re.match(...) for pattern in self.exclude_patterns)`. -/
def excludedBy (patterns : List String) (name : String) : Bool :=
  patterns.any (fun p => matchesPattern p name)

/-! ## MD5 (`hashlib.md5(...).hexdigest()`), on naturals mod `2^32` -/

def m32 : Nat := 4294967296

def mask32 (x : Nat) : Nat := x % m32

def add32 (a b : Nat) : Nat := (a + b) % m32

def not32 (x : Nat) : Nat := 4294967295 - x % m32

def rotl32 (x s : Nat) : Nat :=
  ((x % m32) * 2 ^ s + (x % m32) / 2 ^ (32 - s)) % m32

def mdF (b c d : Nat) : Nat := (b &&& c) ||| (not32 b &&& d)
def mdG (b c d : Nat) : Nat := (b &&& d) ||| (c &&& not32 d)
def mdH (b c d : Nat) : Nat := b ^^^ c ^^^ d
def mdI (b c d : Nat) : Nat := c ^^^ (b ||| not32 d)

def md5K : List Nat :=
  [3614090360, 3905402710, 606105819, 3250441966, 4118548399, 1200080426,
   2821735955, 4249261313, 1770035416, 2336552879, 4294925233, 2304563134,
   1804603682, 4254626195, 2792965006, 1236535329, 4129170786, 3225465664,
   643717713, 3921069994, 3593408605, 38016083, 3634488961, 3889429448,
   568446438, 3275163606, 4107603335, 1163531501, 2850285829, 4243563512,
   1735328473, 2368359562, 4294588738, 2272392833, 1839030562, 4259657740,
   2763975236, 1272893353, 4139469664, 3200236656, 681279174, 3936430074,
   3572445317, 76029189, 3654602809, 3873151461, 530742520, 3299628645,
   4096336452, 1126891415, 2878612391, 4237533241, 1700485571, 2399980690,
   4293915773, 2240044497, 1873313359, 4264355552, 2734768916, 1309151649,
   4149444226, 3174756917, 718787259, 3951481745]

def md5S : List Nat :=
  [7, 12, 17, 22, 7, 12, 17, 22, 7, 12, 17, 22, 7, 12, 17, 22,
   5, 9, 14, 20, 5, 9, 14, 20, 5, 9, 14, 20, 5, 9, 14, 20,
   4, 11, 16, 23, 4, 11, 16, 23, 4, 11, 16, 23, 4, 11, 16, 23,
   6, 10, 15, 21, 6, 10, 15, 21, 6, 10, 15, 21, 6, 10, 15, 21]

/-- Little-endian byte rendering of a natural, `count` bytes. -/
def leBytes (n count : Nat) : List Nat :=
  (List.range count).map (fun i => n / 2 ^ (8 * i) % 256)

def bytesToWord (b : List Nat) (i : Nat) : Nat :=
  b.getD (4 * i) 0 + b.getD (4 * i + 1) 0 * 256 +
    b.getD (4 * i + 2) 0 * 65536 + b.getD (4 * i + 3) 0 * 16777216

def md5Step (msgWords : List Nat) (st : Nat × Nat × Nat × Nat) (i : Nat) :
    Nat × Nat × Nat × Nat :=
  let (a, b, c, d) := st
  let fg : Nat × Nat :=
    if i < 16 then (mdF b c d, i)
    else if i < 32 then (mdG b c d, (5 * i + 1) % 16)
    else if i < 48 then (mdH b c d, (3 * i + 5) % 16)
    else (mdI b c d, (7 * i) % 16)
  let f := add32 (add32 (add32 fg.1 a) (md5K.getD i 0)) (msgWords.getD fg.2 0)
  (d, add32 b (rotl32 f (md5S.getD i 0)), b, c)

def md5Chunk (st : Nat × Nat × Nat × Nat) (chunk : List Nat) :
    Nat × Nat × Nat × Nat :=
  let words := (List.range 16).map (bytesToWord chunk)
  let r := (List.range 64).foldl (md5Step words) st
  (add32 st.1 r.1, add32 st.2.1 r.2.1, add32 st.2.2.1 r.2.2.1, add32 st.2.2.2 r.2.2.2)

def md5Pad (msg : List Nat) : List Nat :=
  let bitLen := 8 * msg.length
  let zeros := (55 + 64 - msg.length % 64) % 64
  msg ++ [128] ++ List.replicate zeros 0 ++ leBytes (bitLen % 2 ^ 64) 8

def chunk64 (l : List Nat) : List (List Nat) :=
  if l = [] then [] else l.take 64 :: chunk64 (l.drop 64)
termination_by l.length
decreasing_by
  simp only [List.length_drop]
  have : 0 < l.length := List.length_pos.mpr (by assumption)
  omega

def md5Digest (msg : List Nat) : List Nat :=
  let st := (chunk64 (md5Pad msg)).foldl md5Chunk
    (1732584193, 4023233417, 2562383102, 271733878)
  leBytes st.1 4 ++ leBytes st.2.1 4 ++ leBytes st.2.2.1 4 ++ leBytes st.2.2.2 4

def hexDigitChar (n : Nat) : Char :=
  if n < 10 then Char.ofNat (48 + n) else Char.ofNat (87 + n)

def byteHex (b : Nat) : List Char := [hexDigitChar (b / 16), hexDigitChar (b % 16)]

/-- UTF-8 encoding of a character (Python `str.encode()` default). -/
def utf8Bytes (c : Char) : List Nat :=
  let n := c.toNat
  if n < 128 then [n]
  else if n < 2048 then [192 + n / 64, 128 + n % 64]
  else if n < 65536 then [224 + n / 4096, 128 + n / 64 % 64, 128 + n % 64]
  else [240 + n / 262144, 128 + n / 4096 % 64, 128 + n / 64 % 64, 128 + n % 64]

def strBytes (s : String) : List Nat := s.data.foldr (fun c acc => utf8Bytes c ++ acc) []

/-- Python `hashlib.md5(text.encode()).hexdigest()`. -/
def md5hex (s : String) : String :=
  String.mk ((md5Digest (strBytes s)).foldr (fun b acc => byteHex b ++ acc) [])

/-! ## The Python AST as seen by `_find_node_end`

`_find_node_end` treats a node generically: it only looks at
`ast.iter_child_nodes(node)` (in field order) and at whether a child
`hasattr(child, 'lineno')`.  `PyNode` captures exactly that view: an
optional `lineno` and the child list in iteration order. -/

inductive PyNode : Type where
  | node : Option Nat → List PyNode → PyNode

def linenoOf : PyNode → Option Nat
  | .node ln _ => ln

def childrenOf : PyNode → List PyNode
  | .node _ cs => cs

/-- Python `hasattr(child, 'lineno')`. -/
def hasLineno (n : PyNode) : Bool := (linenoOf n).isSome

theorem sizeOf_lt_of_getLast? {cs : List PyNode} {c : PyNode} (ln : Option Nat)
    (h : cs.getLast? = some c) : sizeOf c < sizeOf (PyNode.node ln cs) := by
  have hm : c ∈ cs := List.mem_of_mem_getLast? h
  have h1 : sizeOf c < sizeOf cs := List.sizeOf_lt_of_mem hm
  have h2 : sizeOf cs < sizeOf (PyNode.node ln cs) := by
    cases ln <;> simp
  omega

/-- The method `CodeIndexer._find_node_end`.  The Python loop recurses into every
lineno-bearing child but only the iteration at the final index `i ==
len(children) - 1` can return; the recursion is side-effect free, so the
result is determined by the final child alone: if the final child carries a
`lineno` the loop returns the recursive result on it, otherwise the loop
falls through and the node's own `lineno` is returned. -/
def findNodeEnd (n : PyNode) : Nat :=
  match n with
  | .node ln cs =>
    match h : cs.getLast? with
    | some c => if hasLineno c then findNodeEnd c else ln.getD 0
    | none => ln.getD 0
termination_by sizeOf n
decreasing_by exact sizeOf_lt_of_getLast? ln h

/-! ## Expressions for annotations and base classes -/

/-- The expression shapes distinguished by `_get_name_from_expr`: a bare
name, dotted attribute access, a subscript whose index is a bare name (the
`ast.Index` branch), any other subscript, and a catch-all carrying
`type(expr).__name__`. -/
inductive PyExpr : Type where
  | name : String → PyExpr
  | attribute : PyExpr → String → PyExpr
  | subscriptName : PyExpr → String → PyExpr
  | subscriptOther : PyExpr → PyExpr
  | otherExpr : String → PyExpr
deriving DecidableEq, Repr

/-- The method `CodeIndexer._get_name_from_expr`. -/
def getNameFromExpr : PyExpr → String
  | .name id => id
  | .attribute v attr => getNameFromExpr v ++ "." ++ attr
  | .subscriptName v id => getNameFromExpr v ++ "[" ++ id ++ "]"
  | .subscriptOther v => getNameFromExpr v ++ "[...]"
  | .otherExpr kind => kind

/-! ## Statements, declarations, modules, files -/

/-- An `ast.FunctionDef`: the fields `_process_function` reads, plus the
child-node list (in `ast.iter_child_nodes` order) that `_find_node_end`
descends into. -/
structure PyFunc : Type where
  name : String
  lineno : Nat
  docstring : Option String
  args : List (String × Option PyExpr)
  returns : Option PyExpr
  childNodes : List PyNode

/-- The AST node of a function declaration as passed to `_find_node_end`. -/
def funcNode (f : PyFunc) : PyNode := .node (some f.lineno) f.childNodes

/-- An item of a class body: `_process_class` only reacts to
`ast.FunctionDef` items and ignores everything else. -/
inductive PyClassItem : Type where
  | funcDef : PyFunc → PyClassItem
  | otherItem : PyClassItem

/-- An `ast.ClassDef`. -/
structure PyClass : Type where
  name : String
  lineno : Nat
  docstring : Option String
  bases : List PyExpr
  body : List PyClassItem
  childNodes : List PyNode

def classNode (c : PyClass) : PyNode := .node (some c.lineno) c.childNodes

/-- A top-level statement of a module body, as distinguished by
`_index_file` and `_extract_imports`. -/
inductive PyStmt : Type where
  | classDef : PyClass → PyStmt
  | funcDef : PyFunc → PyStmt
  | importNames : List String → PyStmt
  | importFrom : String → List String → PyStmt
  | otherStmt : PyStmt

/-- A parsed `ast.Module`: its docstring (per `ast.get_docstring`) and body. -/
structure PyModule : Type where
  docstring : Option String
  body : List PyStmt

/-- One source file handed to the indexer: its path relative to the root,
its text content, and the result of `ast.parse` (`none` models a
`SyntaxError`). -/
structure PyFile : Type where
  path : String
  content : String
  parsed : Option PyModule

/-! ## Entities

The dataclass hierarchy (`CodeEntity` / `FunctionEntity` / `ClassEntity` /
`ModuleEntity`) is flattened into one record tagged by `entity_type`, the
union of the declared fields.  The owned-children lists
(`ModuleEntity.functions`/`classes` and `ClassEntity.methods`) are carried
as separate results of processing where needed: no operation verified here
reads them back out of an entity (only `/sync`, outside the indexer core,
does). -/

structure CodeEntity : Type where
  name : String
  filepath : String
  line_start : Nat
  line_end : Nat
  docstring : Option String
  code_snippet : Option String
  entity_type : String
  hash : String
  parameters : List (String × Option String)
  return_type : Option String
  base_classes : List String
  imports : List String
deriving DecidableEq, Repr

/-- The hook `CodeEntity.__post_init__`: an MD5 hex digest of the snippet when that
snippet is truthy (non-`None` and non-empty), the empty string otherwise. -/
def postInitHash : Option String → String
  | none => ""
  | some s => if s = "" then "" else md5hex s

/-- Dataclass construction followed by `__post_init__`. -/
def mkEntity (name filepath : String) (ls le : Nat) (ds snip : Option String)
    (ty : String) (params : List (String × Option String)) (ret : Option String)
    (bases imps : List String) : CodeEntity :=
  ⟨name, filepath, ls, le, ds, snip, ty, postInitHash snip, params, ret, bases, imps⟩

/-! ## The indexer state and pipeline -/

/-- The mutable state of `CodeIndexer`: `self.modules` and
`self.all_entities`, both insertion-ordered string-keyed dictionaries. -/
structure IndexerState : Type where
  modules : List (String × CodeEntity)
  all_entities : List (String × CodeEntity)
deriving DecidableEq, Repr

def initialState : IndexerState := ⟨[], []⟩

/-- The method `CodeIndexer._extract_imports`: one rendered string per imported name,
in source order. -/
def extractImports (body : List PyStmt) : List String :=
  body.foldr
    (fun s acc =>
      match s with
      | .importNames ns => ns.map (fun n => "import " ++ n) ++ acc
      | .importFrom m ns => ns.map (fun n => "from " ++ m ++ " import " ++ n) ++ acc
      | _ => acc) []

/-- The method `CodeIndexer._process_function`. -/
def processFunction (f : PyFunc) (relPath content : String) : CodeEntity :=
  let sourceLines := splitlines content
  let funcStart := f.lineno
  let funcEnd := findNodeEnd (funcNode f)
  let funcCode := joinNL (pySlice sourceLines (funcStart - 1) funcEnd)
  let params := f.args.map (fun a => (a.1, a.2.map getNameFromExpr))
  let ret := f.returns.map getNameFromExpr
  mkEntity f.name relPath funcStart funcEnd f.docstring (some funcCode)
    "function" params ret [] []

/-- The method loop of `_process_class`: each `FunctionDef` item is
processed as a function, renamed to `ClassName.methodName`, and inserted
into `self.all_entities` under the qualified name.  (The object appended to
the class's method list is the same object that is renamed, so the final
method list also carries qualified names; that list is not stored in the
flattened record, see above.) -/
def classMethodStep (className relPath content : String)
    (allE : List (String × CodeEntity)) (item : PyClassItem) :
    List (String × CodeEntity) :=
  match item with
  | .funcDef f =>
    let methodEntity := processFunction f relPath content
    let qualifiedName := className ++ "." ++ f.name
    dictInsert allE qualifiedName { methodEntity with name := qualifiedName }
  | .otherItem => allE

/-- The method `CodeIndexer._process_class`: returns the class entity together with
the updated `self.all_entities` (holding the qualified methods). -/
def processClass (c : PyClass) (relPath content : String)
    (allE : List (String × CodeEntity)) : CodeEntity × List (String × CodeEntity) :=
  let sourceLines := splitlines content
  let classStart := c.lineno
  let classEnd := findNodeEnd (classNode c)
  let classCode := joinNL (pySlice sourceLines (classStart - 1) classEnd)
  let baseClasses := c.bases.map getNameFromExpr
  let allE2 := c.body.foldl (classMethodStep c.name relPath content) allE
  (mkEntity c.name relPath classStart classEnd c.docstring (some classCode)
    "class" [] none baseClasses [], allE2)

/-- The body loop of `_index_file`: accumulates the module's function and
class lists while inserting each top-level class and function entity into
`self.all_entities` under its name. -/
def processBody (relPath content : String) :
    List PyStmt → List (String × CodeEntity) →
      List CodeEntity × List CodeEntity × List (String × CodeEntity)
  | [], allE => ([], [], allE)
  | stmt :: rest, allE =>
    match stmt with
    | .classDef c =>
      let (classEntity, allE1) := processClass c relPath content allE
      let allE2 := dictInsert allE1 classEntity.name classEntity
      let (fs, cs, allE3) := processBody relPath content rest allE2
      (fs, classEntity :: cs, allE3)
    | .funcDef f =>
      let funcEntity := processFunction f relPath content
      let allE1 := dictInsert allE funcEntity.name funcEntity
      let (fs, cs, allE2) := processBody relPath content rest allE1
      (funcEntity :: fs, cs, allE2)
    | _ => processBody relPath content rest allE

/-- The method `CodeIndexer._index_file`.  A `SyntaxError` from `ast.parse` leaves the
state untouched (the module entity is created inside the `try`).  The
module entity is created before the body is walked and registered after it;
its `functions`/`classes` lists are the accumulated body results. -/
def indexFile (st : IndexerState) (file : PyFile) : IndexerState :=
  match file.parsed with
  | none => st
  | some m =>
    let relPath := file.path
    let moduleName := splitextRoot (pathBasename file.path)
    let imps := extractImports m.body
    let (_, _, allE1) := processBody relPath file.content m.body st.all_entities
    let moduleEntity := mkEntity moduleName relPath 1
      (splitlines file.content).length m.docstring (some file.content)
      "module" [] none [] imps
    { modules := dictInsert st.modules moduleName moduleEntity,
      all_entities := dictInsert allE1 moduleName moduleEntity }

/-- The method `CodeIndexer.index_codebase` applied to an already discovered file
list: each file is indexed in turn into the shared dictionaries (a per-file
exception leaves that file's contribution out and continues). -/
def indexCodebase (st : IndexerState) (files : List PyFile) : IndexerState :=
  files.foldl indexFile st

/-! ## Source discovery (`_find_python_files` over an abstract tree)

`os.walk` yields each directory top-down; the source prunes subdirectories
whose basename matches an exclude pattern before descending, and collects
files ending in `.py` whose basename does not match any exclude pattern. -/

mutual
inductive FSTree : Type where
  | dir : String → List PyFile → FSForest → FSTree
inductive FSForest : Type where
  | leaf : FSForest
  | branch : FSTree → FSForest → FSForest
end

def dirName : FSTree → String
  | .dir n _ _ => n

/-- Python `file.endswith(suffix)`. -/
def strEndsWith (s suffix : String) : Bool := suffix.data.isSuffixOf s.data

mutual
/-- The method `CodeIndexer._find_python_files` over a directory tree: `os.walk`
yields each directory top-down (root files first), subdirectories whose
basename matches an exclude pattern are pruned before descending, and every
file ending in `.py` whose basename matches no exclude pattern is
collected. -/
def findPythonFiles (patterns : List String) : FSTree → List PyFile
  | .dir _ files subdirs =>
    files.filter (fun f =>
      strEndsWith (pathBasename f.path) ".py" &&
        !excludedBy patterns (pathBasename f.path)) ++
      walkSubdirs patterns subdirs
/-- Walk the (not yet pruned) subdirectories in order, skipping excluded
ones. -/
def walkSubdirs (patterns : List String) : FSForest → List PyFile
  | .leaf => []
  | .branch d rest =>
    (if excludedBy patterns (dirName d) then [] else findPythonFiles patterns d) ++
      walkSubdirs patterns rest
end

mutual
/-- Every file stored anywhere in the tree (no exclusion): used to state
side conditions about the tree's file names. -/
def allTreeFiles : FSTree → List PyFile
  | .dir _ files subdirs => files ++ allForestFiles subdirs
def allForestFiles : FSForest → List PyFile
  | .leaf => []
  | .branch d rest => allTreeFiles d ++ allForestFiles rest
end

/-- A `CodeIndexer(root)` constructed with the given `exclude_patterns`
argument, followed by `index_codebase()`: discovery then indexing from the
empty initial state. -/
def runIndexer (excludeArg : Option (List String)) (t : FSTree) : IndexerState :=
  indexCodebase initialState (findPythonFiles (initExcludePatterns excludeArg) t)

/-! ## Query engine -/

/-- The loop of `CodeIndexer.search_entities`: skip on the kind filter
(`if entity_type and entity.entity_type != entity_type`), then test the
lowercased query against name, docstring and snippet in order, appending
the entity (at most once, because of `continue`) on the first hit. -/
def typeSkip (entityType : Option String) (e : CodeEntity) : Bool :=
  match entityType with
  | some t => t ≠ "" && e.entity_type ≠ t
  | none => false

def searchLoop (queryLower : String) (entityType : Option String) :
    List CodeEntity → List CodeEntity
  | [] => []
  | e :: rest =>
    if typeSkip entityType e then searchLoop queryLower entityType rest
    else if strContainsStr (toLowerStr e.name) queryLower then
      e :: searchLoop queryLower entityType rest
    else if pyTruthy e.docstring &&
        strContainsStr (toLowerStr (e.docstring.getD "")) queryLower then
      e :: searchLoop queryLower entityType rest
    else if pyTruthy e.code_snippet &&
        strContainsStr (toLowerStr (e.code_snippet.getD "")) queryLower then
      e :: searchLoop queryLower entityType rest
    else searchLoop queryLower entityType rest

/-- The method `CodeIndexer.search_entities`. -/
def searchEntities (st : IndexerState) (query : String)
    (entityType : Option String) : List CodeEntity :=
  searchLoop (toLowerStr query) entityType (dictValues st.all_entities)

/-- The method `CodeIndexer.get_entity_by_name`. -/
def getEntityByName (st : IndexerState) (name : String) : Option CodeEntity :=
  dictGet st.all_entities name

/-- The `/search` route: `q` defaults to the empty string and a falsy query
is answered with a 400 error before `search_entities` is consulted. -/
def searchRoute (st : IndexerState) (q entityType : Option String) :
    Except (Nat × String) (List CodeEntity) :=
  let query := q.getD ""
  if query = "" then .error (400, "Query parameter q is required")
  else .ok (searchEntities st query entityType)

/-! ## Relationship engine -/

structure Relationships : Type where
  imports : List String
  imported_by : List String
  uses : List String
  used_by : List String
deriving DecidableEq, Repr

def isWordChar (c : Char) : Bool := c.isAlpha || c.isDigit || c = '_'

def isWordOpt : Option Char → Bool
  | none => false
  | some c => isWordChar c

/-- Does the escaped-literal regex `\b w \b` match at this position
(`prev` is the character just before the position)? -/
def wordMatchAt (w : List Char) (prev : Option Char) (s : List Char) : Bool :=
  w.isPrefixOf s &&
    (isWordOpt prev != isWordOpt w.head?) &&
    (isWordOpt w.getLast? != isWordOpt (s.drop w.length).head?)

def wordSearchAux (w : List Char) : Option Char → List Char → Bool
  | prev, [] => wordMatchAt w prev []
  | prev, c :: rest => wordMatchAt w prev (c :: rest) || wordSearchAux w (some c) rest

/-- Python `re.search(r'\b' + re.escape(word) + r'\b', text)` as a Boolean. -/
def wordSearch (word text : String) : Bool := wordSearchAux word.data none text.data

/-- Python `entity_name.split(".")[-1]`. -/
def simpleNameOf (n : String) : String := (strSplitOn n (Char.ofNat 46)).getLastD n

/-- The method `CodeIndexer.get_entity_relationships`.  The `isinstance(entity,
ModuleEntity)` test is rendered as `entity_type = "module"`, which is
exactly the entities built by the module branch of `_index_file`.  The
usage scan is a single loop appending to `used_by` and `uses`
independently, so each list is a filter-map over the dictionary values. -/
def getEntityRelationships (st : IndexerState) (entityName : String) :
    Relationships :=
  match dictGet st.all_entities entityName with
  | none => ⟨[], [], [], []⟩
  | some entity =>
    let importedByL :=
      if entity.entity_type = "module" then
        (dictValues st.modules).foldr
          (fun m acc =>
            (m.imports.filter (fun stmt => strContainsStr stmt entity.name)).map
              (fun _ => m.name) ++ acc) []
      else []
    let importsL :=
      if entity.entity_type = "module" then
        entity.imports.foldr
          (fun stmt acc =>
            (dictKeys st.modules).filter (fun k => strContainsStr stmt k) ++ acc) []
      else []
    let simple := simpleNameOf entity.name
    let usedByL := (dictValues st.all_entities).filterMap (fun o =>
      if o.name = entity.name then none
      else if pyTruthy o.code_snippet &&
          strContainsStr (o.code_snippet.getD "") simple &&
          wordSearch simple (o.code_snippet.getD "") then some o.name
      else none)
    let usesL := (dictValues st.all_entities).filterMap (fun o =>
      if o.name = entity.name then none
      else
        let otherSimple := simpleNameOf o.name
        if pyTruthy entity.code_snippet &&
            strContainsStr (entity.code_snippet.getD "") otherSimple &&
            wordSearch otherSimple (entity.code_snippet.getD "") then some o.name
        else none)
    ⟨importsL, importedByL, usesL, usedByL⟩

/-! ## Definitions written from the specification text (for refinement
claims), and auxiliary predicates used to state side conditions -/

theorem sizeOf_lt_of_mem_children {n : PyNode} {c : PyNode}
    (h : c ∈ childrenOf n) : sizeOf c < sizeOf n := by
  cases n with
  | node ln cs =>
    simp only [childrenOf] at h
    have h1 : sizeOf c < sizeOf cs := List.sizeOf_lt_of_mem h
    have h2 : sizeOf cs < sizeOf (PyNode.node ln cs) := by cases ln <;> simp
    omega

/-- Modelled from the spec sentence behind C4: recursively descend into the
last child sub-node, in AST iteration order, that carries its own line
number, repeating until a node has no such child, then return that node's
own starting line number. -/
def specNodeEnd (n : PyNode) : Nat :=
  match n with
  | .node ln cs =>
    match h : (cs.filter hasLineno).getLast? with
    | some c => specNodeEnd c
    | none => ln.getD 0
termination_by sizeOf n
decreasing_by
  rename_i cs
  have h1 : c ∈ cs.filter hasLineno := List.mem_of_mem_getLast? h
  have h2 : c ∈ cs := List.mem_of_mem_filter h1
  have h3 : sizeOf c < sizeOf cs := List.sizeOf_lt_of_mem h2
  have h4 : sizeOf cs < sizeOf (PyNode.node ln cs) := by cases ln <;> simp
  omega

/-- Hereditarily, every non-empty child list ends with a lineno-bearing
child.  On such nodes the loop of `_find_node_end` agrees with the
specification's descent rule. -/
def lastChildOk (n : PyNode) : Bool :=
  (match (childrenOf n).getLast? with
   | some c => hasLineno c
   | none => true) &&
  (childrenOf n).attach.all (fun c => lastChildOk c.1)
termination_by sizeOf n
decreasing_by
  exact sizeOf_lt_of_mem_children c.2

/-- Every line-bearing descendant starts no earlier than `b`, updating the
bound at each line-bearing node.  Undecorated declarations satisfy this for
their own starting line. -/
def monotoneFrom (b : Nat) (n : PyNode) : Bool :=
  (childrenOf n).attach.all (fun c =>
    match linenoOf c.1 with
    | some l => decide (b ≤ l) && monotoneFrom l c.1
    | none => monotoneFrom b c.1)
termination_by sizeOf n
decreasing_by
  all_goals exact sizeOf_lt_of_mem_children c.2

/-- The predicate the `search_entities` loop keeps an entity by (shown
below to coincide with the loop). -/
def searchKeeps (queryLower : String) (entityType : Option String)
    (e : CodeEntity) : Bool :=
  !typeSkip entityType e &&
    (strContainsStr (toLowerStr e.name) queryLower ||
     (pyTruthy e.docstring &&
       strContainsStr (toLowerStr (e.docstring.getD "")) queryLower) ||
     (pyTruthy e.code_snippet &&
       strContainsStr (toLowerStr (e.code_snippet.getD "")) queryLower))

/-- Modelled from the spec sentences behind C7: an entity matches when its
kind equals the given filter and the lowercased query is a substring of its
name, or of its docstring, or of its code snippet. -/
def specSearchMatch (query : String) (entityType : Option String)
    (e : CodeEntity) : Bool :=
  (match entityType with
   | some t => e.entity_type = t
   | none => true) &&
  (strContainsStr (toLowerStr e.name) (toLowerStr query) ||
   (match e.docstring with
    | some d => strContainsStr (toLowerStr d) (toLowerStr query)
    | none => false) ||
   (match e.code_snippet with
    | some s => strContainsStr (toLowerStr s) (toLowerStr query)
    | none => false))

/-! ## A concrete worked example

`exFile` is the file `mymod.py` with the content below; the AST fields and
child-node trees (with their `lineno`s) are transcribed from `ast.parse` of
that content.

line 1 a module docstring "Mod doc."; line 2 imports os; line 3 imports y
from x; lines 5-9 define class Foo(Base) with a docstring and a method
bar(self, a: int) -> str whose body is a docstring and a return; lines
11-13 define baz, whose body calls Foo() and foo.bar().
-/

def exContent : String :=
  "\"\"\"Mod doc.\"\"\"\nimport os\nfrom x import y\n\nclass Foo(Base):\n    \"\"\"Foo doc.\"\"\"\n    def bar(self, a: int) -> str:\n        \"\"\"bar doc.\"\"\"\n        return \"z\"\n\ndef baz():\n    foo = Foo()\n    foo.bar()\n"

/-- The `FunctionDef` for `bar` (line 7): children are `arguments` (no
lineno, two `arg` children), the docstring `Expr` (8), `Return` (9) and the
return annotation `Name` (7) — the annotation iterates last. -/
def barFunc : PyFunc :=
  { name := "bar", lineno := 7, docstring := some "bar doc.",
    args := [("self", none), ("a", some (.name "int"))],
    returns := some (.name "str"),
    childNodes :=
      [.node none [.node (some 7) [], .node (some 7) [.node (some 7) [.node none []]]],
       .node (some 8) [.node (some 8) []],
       .node (some 9) [.node (some 9) []],
       .node (some 7) [.node none []]] }

def fooClass : PyClass :=
  { name := "Foo", lineno := 5, docstring := some "Foo doc.",
    bases := [.name "Base"],
    body := [.otherItem, .funcDef barFunc],
    childNodes :=
      [.node (some 5) [.node none []],
       .node (some 6) [.node (some 6) []],
       .node (some 7) barFunc.childNodes] }

def bazFunc : PyFunc :=
  { name := "baz", lineno := 11, docstring := none,
    args := [], returns := none,
    childNodes :=
      [.node none [],
       .node (some 12) [.node (some 12) [.node none []],
                        .node (some 12) [.node (some 12) [.node none []]]],
       .node (some 13) [.node (some 13)
         [.node (some 13) [.node (some 13) [.node none []], .node none []]]]] }

def exModule : PyModule :=
  { docstring := some "Mod doc.",
    body := [.otherStmt, .importNames ["os"], .importFrom "x" ["y"],
             .classDef fooClass, .funcDef bazFunc] }

def exFile : PyFile := { path := "mymod.py", content := exContent, parsed := some exModule }

def exState : IndexerState := indexCodebase initialState [exFile]

/-! # Theorems

## Dictionary lemmas -/

theorem find?_overwrite_self {α : Type} (k : String) (v : α) :
    ∀ (d : List (String × α)), d.any (fun p => p.1 = k) →
      List.find? (fun p => p.1 = k) (d.map (fun p => if p.1 = k then (k, v) else p)) =
        some (k, v)
  | [], h => by simp at h
  | p :: rest, h => by
    by_cases hp : p.1 = k
    · simp [List.find?_cons, hp]
    · have hr : rest.any (fun p => p.1 = k) := by
        simp only [List.any_cons, Bool.or_eq_true, decide_eq_true_eq] at h
        rcases h with h | h
        · exact absurd h hp
        · exact h
      have hd : (decide (p.1 = k)) = false := by simp [hp]
      simp only [List.map_cons, if_neg hp, List.find?_cons, hd]
      exact find?_overwrite_self k v rest hr

theorem find?_overwrite_ne {α : Type} (k k' : String) (v : α) (hne : k' ≠ k) :
    ∀ (d : List (String × α)),
      List.find? (fun p => p.1 = k') (d.map (fun p => if p.1 = k then (k, v) else p)) =
        List.find? (fun p => p.1 = k') d
  | [] => rfl
  | p :: rest => by
    by_cases hp : p.1 = k
    · have h1 : (decide (k = k')) = false := by simp; exact fun e => hne e.symm
      have h2 : (decide (p.1 = k')) = false := by simp; rw [hp]; exact fun e => hne e.symm
      simp only [List.map_cons, if_pos hp, List.find?_cons, h1, h2]
      exact find?_overwrite_ne k k' v hne rest
    · simp only [List.map_cons, if_neg hp, List.find?_cons]
      by_cases hq : p.1 = k'
      · have hq' : (decide (p.1 = k')) = true := by simp [hq]
        simp only [hq']
      · have hq' : (decide (p.1 = k')) = false := by simp [hq]
        simp only [hq']
        exact find?_overwrite_ne k k' v hne rest

theorem find?_none_of_not_any {α : Type} (k : String) :
    ∀ (d : List (String × α)), ¬(d.any (fun p => p.1 = k) = true) →
      List.find? (fun p => p.1 = k) d = none
  | [], _ => rfl
  | p :: rest, h => by
    simp only [List.any_cons, Bool.or_eq_true, decide_eq_true_eq] at h
    push_neg at h
    have hd : (decide (p.1 = k)) = false := by simp [h.1]
    simp only [List.find?_cons, hd]
    exact find?_none_of_not_any k rest (by simp [h.2])

theorem dictGet_insert_self {α : Type} (d : List (String × α)) (k : String) (v : α) :
    dictGet (dictInsert d k v) k = some v := by
  unfold dictInsert dictGet
  by_cases h : d.any (fun p => p.1 = k)
  · rw [if_pos h, find?_overwrite_self k v d h]; rfl
  · rw [if_neg h, List.find?_append, find?_none_of_not_any k d h]
    simp [List.find?_cons]

theorem dictGet_insert_ne {α : Type} (d : List (String × α)) (k k' : String) (v : α)
    (h : k' ≠ k) : dictGet (dictInsert d k v) k' = dictGet d k' := by
  unfold dictInsert dictGet
  by_cases hc : d.any (fun p => p.1 = k)
  · rw [if_pos hc, find?_overwrite_ne k k' v h d]
  · rw [if_neg hc, List.find?_append]
    have h1 : (decide (k = k')) = false := by simp; exact fun e => h e.symm
    have : List.find? (fun p => p.1 = k') [(k, v)] = none := by
      simp only [List.find?_cons, h1]; rfl
    rw [this]
    cases List.find? (fun p => p.1 = k') d <;> rfl

theorem dictGet_insert_isSome {α : Type} (d : List (String × α)) (k k' : String) (v : α)
    (h : (dictGet d k').isSome) : (dictGet (dictInsert d k v) k').isSome := by
  by_cases he : k' = k
  · subst he; rw [dictGet_insert_self]; rfl
  · rw [dictGet_insert_ne d k k' v he]; exact h


/-! ## Claim C8: the content hash is a pure function of the snippet -/

/-- C8: the content hash is a pure function of the code snippet: two
entities constructed (by the dataclass constructor with its
post-init hook) from byte-identical `code_snippet` text carry identical
hashes, regardless of every other field — hence also across files, entity
kinds and successive rebuilds — and an entity constructed with no code
snippet has an empty hash. -/
theorem hash_pure_function_of_snippet
    (n₁ f₁ : String) (ls₁ le₁ : Nat) (d₁ : Option String) (ty₁ : String)
    (p₁ : List (String × Option String)) (r₁ : Option String) (b₁ i₁ : List String)
    (n₂ f₂ : String) (ls₂ le₂ : Nat) (d₂ : Option String) (ty₂ : String)
    (p₂ : List (String × Option String)) (r₂ : Option String) (b₂ i₂ : List String)
    (snip₁ snip₂ : Option String) (hsnip : snip₁ = snip₂) :
    (mkEntity n₁ f₁ ls₁ le₁ d₁ snip₁ ty₁ p₁ r₁ b₁ i₁).hash =
      (mkEntity n₂ f₂ ls₂ le₂ d₂ snip₂ ty₂ p₂ r₂ b₂ i₂).hash ∧
    (mkEntity n₁ f₁ ls₁ le₁ d₁ none ty₁ p₁ r₁ b₁ i₁).hash = "" := by
  constructor
  · show postInitHash snip₁ = postInitHash snip₂
    rw [hsnip]
  · rfl

/-- Witness for C8 at concrete entities sharing the snippet text. -/
theorem hash_pure_function_of_snippet_witness :
    (some "def f(): pass" : Option String) = some "def f(): pass" ∧
    ((mkEntity "f" "a.py" 1 1 none (some "def f(): pass") "function" [] none [] []).hash =
      (mkEntity "g" "b.py" 9 9 (some "doc") (some "def f(): pass") "class" [] none [] []).hash ∧
     (mkEntity "f" "a.py" 1 1 none none "function" [] none [] []).hash = "") :=
  ⟨rfl, hash_pure_function_of_snippet "f" "a.py" 1 1 none "function" [] none [] []
    "g" "b.py" 9 9 (some "doc") "class" [] none [] []
    (some "def f(): pass") (some "def f(): pass") rfl⟩

/-! ## Claim C9: a file with a syntax error contributes nothing and the
run continues -/

/-- C9: a file whose parse raises a syntax error contributes no module
entity and no entities at all, and the indexing pass continues: removing
the failing file from the processed list leaves the resulting state
unchanged, so every other file's entities are still produced. -/
theorem unparsable_file_contributes_nothing
    (st : IndexerState) (f : PyFile) (before after : List PyFile)
    (h : f.parsed = none) :
    indexFile st f = st ∧
    indexCodebase st (before ++ f :: after) = indexCodebase st (before ++ after) := by
  have hstep : ∀ s : IndexerState, indexFile s f = s := by
    intro s; unfold indexFile; rw [h]
  refine ⟨hstep st, ?_⟩
  unfold indexCodebase
  rw [List.foldl_append, List.foldl_append, List.foldl_cons, hstep]

/-- Witness for C9: a concrete three-file pass where the middle file fails
to parse. -/
theorem unparsable_file_contributes_nothing_witness :
    (PyFile.mk "bad.py" "def (" none).parsed = none ∧
    (indexFile initialState (PyFile.mk "bad.py" "def (" none) = initialState ∧
     indexCodebase initialState
        ([PyFile.mk "a.py" "" (some ⟨none, []⟩)] ++
          PyFile.mk "bad.py" "def (" none :: [PyFile.mk "b.py" "" (some ⟨none, []⟩)]) =
       indexCodebase initialState
        ([PyFile.mk "a.py" "" (some ⟨none, []⟩)] ++ [PyFile.mk "b.py" "" (some ⟨none, []⟩)])) :=
  ⟨rfl, unparsable_file_contributes_nothing initialState _ _ _ rfl⟩


/-! ## Claim C2: a rebuild does not discard the previous generation -/

theorem foldl_preserves {β σ : Type} (step : σ → β → σ) (P : σ → Prop)
    (h : ∀ s b, P s → P (step s b)) :
    ∀ (l : List β) (s : σ), P s → P (l.foldl step s)
  | [], _, hs => hs
  | b :: rest, s, hs => foldl_preserves step P h rest (step s b) (h s b hs)

theorem classMethodStep_preserves_isSome (cn rp ct : String)
    (allE : List (String × CodeEntity)) (item : PyClassItem) (k : String)
    (h : (dictGet allE k).isSome) :
    (dictGet (classMethodStep cn rp ct allE item) k).isSome := by
  cases item with
  | funcDef f => exact dictGet_insert_isSome _ _ _ _ h
  | otherItem => exact h

theorem processClass_preserves_isSome (c : PyClass) (rp ct : String)
    (allE : List (String × CodeEntity)) (k : String)
    (h : (dictGet allE k).isSome) :
    (dictGet (processClass c rp ct allE).2 k).isSome := by
  unfold processClass
  exact foldl_preserves _ (fun d => (dictGet d k).isSome)
    (fun s b hs => classMethodStep_preserves_isSome c.name rp ct s b k hs) c.body allE h

theorem processBody_preserves_isSome (rp ct : String) :
    ∀ (stmts : List PyStmt) (allE : List (String × CodeEntity)) (k : String),
      (dictGet allE k).isSome →
      (dictGet (processBody rp ct stmts allE).2.2 k).isSome
  | [], _, _, h => h
  | stmt :: rest, allE, k, h => by
    cases stmt with
    | classDef c =>
      have h1 := processClass_preserves_isSome c rp ct allE k h
      have h2 := dictGet_insert_isSome (processClass c rp ct allE).2
        (processClass c rp ct allE).1.name k (processClass c rp ct allE).1 h1
      have h3 := processBody_preserves_isSome rp ct rest _ k h2
      simpa [processBody] using h3
    | funcDef f =>
      have h1 := dictGet_insert_isSome allE (processFunction f rp ct).name k
        (processFunction f rp ct) h
      have h2 := processBody_preserves_isSome rp ct rest _ k h1
      simpa [processBody] using h2
    | importNames ns =>
      have h2 := processBody_preserves_isSome rp ct rest allE k h
      simpa [processBody] using h2
    | importFrom m ns =>
      have h2 := processBody_preserves_isSome rp ct rest allE k h
      simpa [processBody] using h2
    | otherStmt =>
      have h2 := processBody_preserves_isSome rp ct rest allE k h
      simpa [processBody] using h2

theorem indexFile_preserves_isSome (st : IndexerState) (f : PyFile) (k : String) :
    ((dictGet st.all_entities k).isSome →
      (dictGet (indexFile st f).all_entities k).isSome) ∧
    ((dictGet st.modules k).isSome →
      (dictGet (indexFile st f).modules k).isSome) := by
  unfold indexFile
  cases hp : f.parsed with
  | none => exact ⟨id, id⟩
  | some m =>
    constructor
    · intro h
      have h1 := processBody_preserves_isSome f.path f.content m.body st.all_entities k h
      exact dictGet_insert_isSome _ _ _ _ h1
    · intro h
      exact dictGet_insert_isSome _ _ _ _ h

/-- C2 as amendable by the code: `index_codebase` only ever inserts into
the two shared dictionaries; it never clears them.  Every name present in
the module index or the global entity index before a pass is therefore
still present after the pass — stale names of entities that are not
re-produced from the current tree are retained, not discarded. -/
theorem index_pass_retains_existing_names
    (st : IndexerState) (files : List PyFile) (n : String) :
    ((dictGet st.all_entities n).isSome →
      (dictGet (indexCodebase st files).all_entities n).isSome) ∧
    ((dictGet st.modules n).isSome →
      (dictGet (indexCodebase st files).modules n).isSome) := by
  unfold indexCodebase
  constructor
  · exact fun h => foldl_preserves indexFile
      (fun s => (dictGet s.all_entities n).isSome)
      (fun s b hs => (indexFile_preserves_isSome s b n).1 hs) files st h
  · exact fun h => foldl_preserves indexFile
      (fun s => (dictGet s.modules n).isSome)
      (fun s b hs => (indexFile_preserves_isSome s b n).2 hs) files st h

/-- A leftover entity from an earlier pass, present before a rebuild. -/
def ghostEntity : CodeEntity :=
  mkEntity "ghost" "deleted.py" 1 1 none none "function" [] none [] []

def ghostState : IndexerState := ⟨[], [("ghost", ghostEntity)]⟩

/-- A syntactically valid file with empty content (its module body is
empty), re-indexed by the pass; it does not re-produce `"ghost"`. -/
def freshFile : PyFile := ⟨"m.py", "", some ⟨none, []⟩⟩

/-- Counterexample to C2 as stated: after a full pass over a tree that does
not re-produce the name `"ghost"`, that name is still present in the global
entity index (mapped to its old entity), not absent. -/
theorem index_pass_retains_existing_names_counterexample :
    dictGet (indexCodebase ghostState [freshFile]).all_entities "ghost" =
      some ghostEntity ∧
    (dictGet (indexCodebase ghostState [freshFile]).all_entities "m").isSome := by
  constructor <;> rfl

/-- Witness for the amended C2 at the same concrete rebuild. -/
theorem index_pass_retains_existing_names_witness :
    (dictGet ghostState.all_entities "ghost").isSome = true ∧
    (dictGet (indexCodebase ghostState [freshFile]).all_entities "ghost").isSome = true :=
  ⟨rfl, (index_pass_retains_existing_names ghostState [freshFile] "ghost").1 (by rfl)⟩


/-! ## Claim C10: relationship lists never contain the entity itself -/

/-- C10: for an entity present in the index under its own name, the usage
scan of `get_entity_relationships` skips every dictionary value whose name
equals the entity's, so the returned `uses` and `used_by` lists never
contain the queried name — even when the entity's simple name occurs as a
whole-word token inside its own code snippet. -/
theorem relationships_never_self (st : IndexerState) (n : String) (e : CodeEntity)
    (hget : dictGet st.all_entities n = some e) (hname : e.name = n) :
    n ∉ (getEntityRelationships st n).uses ∧
    n ∉ (getEntityRelationships st n).used_by := by
  unfold getEntityRelationships
  rw [hget]
  constructor
  · intro hmem
    simp only [List.mem_filterMap] at hmem
    obtain ⟨o, _, hfo⟩ := hmem
    by_cases heq : o.name = e.name
    · rw [if_pos heq] at hfo; exact Option.noConfusion hfo
    · rw [if_neg heq] at hfo
      by_cases hcond : (pyTruthy e.code_snippet &&
          (strContainsStr (e.code_snippet.getD "") (simpleNameOf o.name) &&
            wordSearch (simpleNameOf o.name) (e.code_snippet.getD ""))) = true
      · simp only [Bool.and_assoc] at hfo
        rw [if_pos hcond] at hfo
        have : o.name = n := Option.some.inj hfo
        exact heq (this.trans hname.symm)
      · simp only [Bool.and_assoc] at hfo
        rw [if_neg hcond] at hfo
        exact Option.noConfusion hfo
  · intro hmem
    simp only [List.mem_filterMap] at hmem
    obtain ⟨o, _, hfo⟩ := hmem
    by_cases heq : o.name = e.name
    · rw [if_pos heq] at hfo; exact Option.noConfusion hfo
    · rw [if_neg heq] at hfo
      by_cases hcond : (pyTruthy o.code_snippet &&
          (strContainsStr (o.code_snippet.getD "") (simpleNameOf e.name) &&
            wordSearch (simpleNameOf e.name) (o.code_snippet.getD ""))) = true
      · simp only [Bool.and_assoc] at hfo
        rw [if_pos hcond] at hfo
        have : o.name = n := Option.some.inj hfo
        exact heq (this.trans hname.symm)
      · simp only [Bool.and_assoc] at hfo
        rw [if_neg hcond] at hfo
        exact Option.noConfusion hfo

/-- Witness for C10: the entity `baz` of the worked example, whose snippet
contains the whole word `baz` on its `def` line. -/
theorem relationships_never_self_witness :
    dictGet exState.all_entities "baz" =
      some (processFunction bazFunc "mymod.py" exContent) ∧
    (processFunction bazFunc "mymod.py" exContent).name = "baz" ∧
    ("baz" ∉ (getEntityRelationships exState "baz").uses ∧
     "baz" ∉ (getEntityRelationships exState "baz").used_by) := by
  have h1 : dictGet exState.all_entities "baz" =
      some (processFunction bazFunc "mymod.py" exContent) := by
    simp only [exState, exFile, indexCodebase, List.foldl_cons, List.foldl_nil]
    rfl
  exact ⟨h1, rfl, relationships_never_self exState "baz" _ h1 rfl⟩


/-! ## Claim C3: methods are registered under (and named by) their
qualified name, never their bare name -/

/-- The key `q` maps to a function entity named `q`. -/
def qualInv (q : String) (d : List (String × CodeEntity)) : Prop :=
  ∃ ent, dictGet d q = some ent ∧ ent.name = q ∧ ent.entity_type = "function"

theorem classMethodStep_qualInv (cn rp ct q : String)
    (d : List (String × CodeEntity)) (item : PyClassItem)
    (h : qualInv q d) : qualInv q (classMethodStep cn rp ct d item) := by
  cases item with
  | otherItem => exact h
  | funcDef g =>
    unfold classMethodStep
    by_cases hk : cn ++ "." ++ g.name = q
    · subst hk
      exact ⟨_, dictGet_insert_self _ _ _, rfl, rfl⟩
    · obtain ⟨ent, h1, h2, h3⟩ := h
      exact ⟨ent, by rw [dictGet_insert_ne _ _ _ _ (fun e => hk e.symm)]; exact h1, h2, h3⟩

theorem methodFold_qualInv (cn rp ct : String) (f : PyFunc) :
    ∀ (body : List PyClassItem) (d : List (String × CodeEntity)),
      PyClassItem.funcDef f ∈ body →
      qualInv (cn ++ "." ++ f.name) (body.foldl (classMethodStep cn rp ct) d)
  | [], _, h => absurd h (List.not_mem_nil _)
  | item :: rest, d, h => by
    rw [List.foldl_cons]
    rcases List.mem_cons.mp h with he | ht
    · have hstart : qualInv (cn ++ "." ++ f.name) (classMethodStep cn rp ct d item) := by
        rw [← he]
        unfold classMethodStep
        exact ⟨_, dictGet_insert_self _ _ _, rfl, rfl⟩
      exact foldl_preserves _ _ (fun s b hs => classMethodStep_qualInv cn rp ct _ s b hs)
        rest _ hstart
    · exact methodFold_qualInv cn rp ct f rest _ ht

theorem dot_mem_qualified (a b : String) : '.' ∈ (a ++ "." ++ b).data := by
  have : (a ++ "." ++ b).data = (a.data ++ ['.']) ++ b.data := rfl
  rw [this]
  simp

theorem methodFold_dotless_unchanged (cn rp ct k : String) (hk : '.' ∉ k.data) :
    ∀ (body : List PyClassItem) (d : List (String × CodeEntity)),
      dictGet (body.foldl (classMethodStep cn rp ct) d) k = dictGet d k
  | [], _ => rfl
  | item :: rest, d => by
    rw [List.foldl_cons, methodFold_dotless_unchanged cn rp ct k hk rest _]
    cases item with
    | otherItem => rfl
    | funcDef g =>
      unfold classMethodStep
      have hne : k ≠ cn ++ "." ++ g.name := by
        intro he
        exact hk (he ▸ dot_mem_qualified cn g.name)
      exact dictGet_insert_ne _ _ _ _ hne

/-- C3: for every indexed class `C` and method `m` declared directly in its
body, processing the class registers in the global entity index, under the
qualified key `C.m`, a function entity whose recorded name is `C.m` (so
`get_entity_by_name "C.m"` returns it), while the bare key `m` is left
exactly as it was before the class was processed — the method is never
stored under its bare name. -/
theorem methods_registered_qualified (ms : List (String × CodeEntity))
    (c : PyClass) (relPath content : String) (allE : List (String × CodeEntity))
    (f : PyFunc) (hmem : PyClassItem.funcDef f ∈ c.body)
    (hdot : '.' ∉ f.name.data) :
    (∃ ent,
      getEntityByName ⟨ms, (processClass c relPath content allE).2⟩
          (c.name ++ "." ++ f.name) = some ent ∧
        ent.name = c.name ++ "." ++ f.name ∧ ent.entity_type = "function") ∧
    dictGet (processClass c relPath content allE).2 f.name = dictGet allE f.name := by
  have hsnd : (processClass c relPath content allE).2 =
      c.body.foldl (classMethodStep c.name relPath content) allE := rfl
  constructor
  · obtain ⟨ent, h1, h2, h3⟩ :=
      methodFold_qualInv c.name relPath content f c.body allE hmem
    exact ⟨ent, by show dictGet _ _ = _; rw [hsnd]; exact h1, h2, h3⟩
  · rw [hsnd]
    exact methodFold_dotless_unchanged c.name relPath content f.name hdot c.body allE

/-- Witness for C3: the method `bar` of class `Foo` in the worked example. -/
theorem methods_registered_qualified_witness :
    (PyClassItem.funcDef barFunc ∈ fooClass.body ∧ '.' ∉ "bar".data) ∧
    ((∃ ent,
      getEntityByName ⟨[], (processClass fooClass "mymod.py" exContent []).2⟩
          ("Foo" ++ "." ++ "bar") = some ent ∧
        ent.name = "Foo" ++ "." ++ "bar" ∧ ent.entity_type = "function") ∧
     dictGet (processClass fooClass "mymod.py" exContent []).2 "bar" =
       dictGet ([] : List (String × CodeEntity)) "bar") :=
  ⟨⟨List.Mem.tail _ (List.Mem.head _), by decide⟩,
    methods_registered_qualified [] fooClass "mymod.py" exContent []
      barFunc (List.Mem.tail _ (List.Mem.head _)) (by decide)⟩


/-! ## Claims C6 and C7: the query engine -/

theorem searchLoop_cons (q : String) (t : Option String) (e : CodeEntity)
    (rest : List CodeEntity) :
    searchLoop q t (e :: rest) =
      if searchKeeps q t e then e :: searchLoop q t rest else searchLoop q t rest := by
  unfold searchKeeps
  show (if typeSkip t e then searchLoop q t rest
    else if strContainsStr (toLowerStr e.name) q then e :: searchLoop q t rest
    else if pyTruthy e.docstring &&
        strContainsStr (toLowerStr (e.docstring.getD "")) q then e :: searchLoop q t rest
    else if pyTruthy e.code_snippet &&
        strContainsStr (toLowerStr (e.code_snippet.getD "")) q then e :: searchLoop q t rest
    else searchLoop q t rest) = _
  by_cases h1 : typeSkip t e
  · simp [h1]
  · by_cases h2 : strContainsStr (toLowerStr e.name) q
    · simp [h1, h2]
    · by_cases h3 : (pyTruthy e.docstring &&
          strContainsStr (toLowerStr (e.docstring.getD "")) q) = true
      · simp [h1, h2, h3]
      · by_cases h4 : (pyTruthy e.code_snippet &&
            strContainsStr (toLowerStr (e.code_snippet.getD "")) q) = true
        · simp [h1, h2, h3, h4]
        · simp [h1, h2, h3, h4]

theorem searchLoop_eq_filter (q : String) (t : Option String) :
    ∀ l : List CodeEntity, searchLoop q t l = l.filter (searchKeeps q t)
  | [] => rfl
  | e :: rest => by
    rw [searchLoop_cons, List.filter_cons, searchLoop_eq_filter q t rest]

theorem data_ne_nil_of_ne_empty {q : String} (h : q ≠ "") : q.data ≠ [] := by
  intro hd
  apply h
  cases q with
  | mk l => cases hd; rfl

theorem listIsInfix_nil_hay {n : List Char} (h : n ≠ []) : listIsInfix n [] = false := by
  cases n with
  | nil => exact absurd rfl h
  | cons c cs => rfl

theorem toLowerStr_data_ne_nil {q : String} (h : q ≠ "") :
    (toLowerStr q).data ≠ [] := by
  show (q.data.map Char.toLower) ≠ []
  simp [data_ne_nil_of_ne_empty h]

theorem searchKeeps_eq_spec (q : String) (t : Option String) (e : CodeEntity)
    (hq : q ≠ "") (ht : ∀ s, t = some s → s ≠ "") :
    searchKeeps (toLowerStr q) t e = specSearchMatch q t e := by
  have hempty : (toLowerStr "").data = [] := rfl
  unfold searchKeeps specSearchMatch
  have hdoc : (pyTruthy e.docstring &&
      strContainsStr (toLowerStr (e.docstring.getD "")) (toLowerStr q)) =
      (match e.docstring with
       | some d => strContainsStr (toLowerStr d) (toLowerStr q)
       | none => false) := by
    cases hd : e.docstring with
    | none => rfl
    | some d =>
      by_cases hde : d = ""
      · subst hde
        simp [pyTruthy, strContainsStr, hempty,
          listIsInfix_nil_hay (toLowerStr_data_ne_nil hq)]
      · simp [pyTruthy, hde]
  have hsnip : (pyTruthy e.code_snippet &&
      strContainsStr (toLowerStr (e.code_snippet.getD "")) (toLowerStr q)) =
      (match e.code_snippet with
       | some s => strContainsStr (toLowerStr s) (toLowerStr q)
       | none => false) := by
    cases hs : e.code_snippet with
    | none => rfl
    | some s =>
      by_cases hse : s = ""
      · subst hse
        simp [pyTruthy, strContainsStr, hempty,
          listIsInfix_nil_hay (toLowerStr_data_ne_nil hq)]
      · simp [pyTruthy, hse]
  rw [hdoc, hsnip]
  cases t with
  | none => simp [typeSkip]
  | some tt =>
    have htt : tt ≠ "" := ht tt rfl
    simp [typeSkip, htt]

/-- C6: a search with an empty (or missing, defaulted-to-empty) query
string is answered with a 400 invalid-input error rather than a result,
and a search with a non-empty query that matches no entity in the index
returns the empty list and never an error. -/
theorem empty_query_rejected_no_match_empty (st : IndexerState)
    (q? t? : Option String) :
    (q?.getD "" = "" →
      searchRoute st q? t? = .error (400, "Query parameter q is required")) ∧
    (∀ q, q? = some q → q ≠ "" →
      (∀ e ∈ dictValues st.all_entities, searchKeeps (toLowerStr q) t? e = false) →
      searchRoute st q? t? = .ok []) := by
  constructor
  · intro h
    unfold searchRoute
    rw [h]
    rfl
  · intro q hq hne hall
    unfold searchRoute
    rw [hq]
    show (if q = "" then _ else _) = _
    rw [if_neg hne]
    unfold searchEntities
    rw [searchLoop_eq_filter]
    rw [List.filter_eq_nil_iff.mpr (fun e he => by simp [hall e he])]

/-- An entity used by the search witnesses. -/
def alphaEntity : CodeEntity :=
  mkEntity "alpha" "a.py" 1 1 (some "alpha doc") none "function" [] none [] []

def searchWitnessState : IndexerState := ⟨[], [("alpha", alphaEntity)]⟩

/-- Witness for C6: empty query rejected; query `"zzz"` matches nothing and
yields `ok []`. -/
theorem empty_query_rejected_no_match_empty_witness :
    ((some "" : Option String).getD "" = "" ∧
      searchRoute searchWitnessState (some "") none =
        .error (400, "Query parameter q is required")) ∧
    ("zzz" ≠ "" ∧
      searchRoute searchWitnessState (some "zzz") none = .ok []) :=
  ⟨⟨rfl, (empty_query_rejected_no_match_empty searchWitnessState (some "") none).1 rfl⟩,
   ⟨by decide,
    (empty_query_rejected_no_match_empty searchWitnessState (some "zzz") none).2
      "zzz" rfl (by decide) (by decide)⟩⟩

/-- C7: for a non-empty query and an optional non-degenerate kind filter,
`search_entities` returns exactly the entities whose kind equals the filter
(when given) and for which the lowercased query is a substring of the name,
docstring or code snippet — as a filter of the dictionary's values, so each
matching entity appears at most once (even when several fields match) and
results follow the index's insertion order. -/
theorem search_entities_eq_spec_filter (st : IndexerState) (q : String)
    (t? : Option String) (hq : q ≠ "") (ht : ∀ s, t? = some s → s ≠ "") :
    searchEntities st q t? =
      (dictValues st.all_entities).filter (specSearchMatch q t?) := by
  unfold searchEntities
  rw [searchLoop_eq_filter]
  exact List.filter_congr (fun e _ => searchKeeps_eq_spec q t? e hq ht)

/-- Witness for C7 at a concrete one-entity index. -/
theorem search_entities_eq_spec_filter_witness :
    ("alp" ≠ "" ∧ (∀ s, (some "function" : Option String) = some s → s ≠ "")) ∧
    searchEntities searchWitnessState "alp" (some "function") =
      (dictValues searchWitnessState.all_entities).filter
        (specSearchMatch "alp" (some "function")) :=
  ⟨⟨by decide, fun s hs => by cases hs; decide⟩,
   search_entities_eq_spec_filter searchWitnessState "alp" (some "function")
     (by decide) (fun s hs => by cases hs; decide)⟩


/-! ## Claim C4: the span algorithm's descent rule -/

theorem all_attach_eq {α : Type} (l : List α) (p : α → Bool) :
    (l.attach.all fun x => p x.1) = l.all p := by
  rw [Bool.eq_iff_iff]
  simp only [List.all_eq_true, List.mem_attach, true_implies, Subtype.forall]

/-- Plain-match form of the `findNodeEnd` equation. -/
theorem findNodeEnd_node (ln : Option Nat) (cs : List PyNode) :
    findNodeEnd (.node ln cs) =
      match cs.getLast? with
      | some c => if hasLineno c then findNodeEnd c else ln.getD 0
      | none => ln.getD 0 := by
  rw [findNodeEnd]
  split
  · rename_i c h; rw [h]
  · rename_i h; rw [h]

/-- Plain-match form of the `specNodeEnd` equation. -/
theorem specNodeEnd_node (ln : Option Nat) (cs : List PyNode) :
    specNodeEnd (.node ln cs) =
      match (cs.filter hasLineno).getLast? with
      | some c => specNodeEnd c
      | none => ln.getD 0 := by
  rw [specNodeEnd]
  split
  · rename_i c h; rw [h]
  · rename_i h; rw [h]

/-- All-children form of the `lastChildOk` equation. -/
theorem lastChildOk_node (ln : Option Nat) (cs : List PyNode) :
    lastChildOk (.node ln cs) =
      ((match cs.getLast? with
        | some c => hasLineno c
        | none => true) && cs.all (fun c => lastChildOk c)) := by
  rw [lastChildOk]
  simp only [childrenOf]
  rw [all_attach_eq]

/-- The last element survives filtering when it satisfies the filter. -/
theorem getLast?_filter_hasLineno : ∀ (cs : List PyNode) (c : PyNode),
    cs.getLast? = some c → hasLineno c = true →
    (cs.filter hasLineno).getLast? = some c
  | [], c, h, _ => by cases h
  | [x], c, h, hc => by
    have hx : x = c := by simpa using h
    subst hx
    simp [List.filter, hc]
  | x :: y :: rest, c, h, hc => by
    have h2 : (y :: rest).getLast? = some c := by
      simpa [List.getLast?_cons_cons] using h
    have ih := getLast?_filter_hasLineno (y :: rest) c h2 hc
    by_cases hx : hasLineno x
    · rw [List.filter_cons_of_pos hx]
      cases hf : (y :: rest).filter hasLineno with
      | nil => rw [hf] at ih; cases ih
      | cons z zs =>
        rw [hf] at ih
        rw [List.getLast?_cons_cons]
        exact ih
    · rw [List.filter_cons_of_neg hx]
      exact ih

theorem findNodeEnd_eq_specNodeEnd_aux : ∀ (k : Nat) (n : PyNode), sizeOf n ≤ k →
    lastChildOk n = true → findNodeEnd n = specNodeEnd n := by
  intro k
  induction k with
  | zero =>
    intro n hn
    exfalso
    cases n with
    | node ln cs =>
      have : 0 < sizeOf (PyNode.node ln cs) := by cases ln <;> simp
      omega
  | succ k ih =>
    intro n hn hok
    cases n with
    | node ln cs =>
      rw [findNodeEnd_node, specNodeEnd_node, lastChildOk_node] at *
      cases hl : cs.getLast? with
      | none =>
        have hcs : cs = [] := List.getLast?_eq_none_iff.mp hl
        subst hcs
        rfl
      | some c =>
        rw [hl] at hok
        simp only [Bool.and_eq_true] at hok
        obtain ⟨hcl, hall⟩ := hok
        rw [getLast?_filter_hasLineno cs c hl hcl]
        show (if hasLineno c = true then findNodeEnd c else ln.getD 0) = specNodeEnd c
        rw [if_pos hcl]
        apply ih
        · have h1 : c ∈ cs := List.mem_of_mem_getLast? hl
          have h2 := List.sizeOf_lt_of_mem h1
          have h3 : sizeOf cs < sizeOf (PyNode.node ln cs) := by cases ln <;> simp
          omega
        · exact List.all_eq_true.mp hall c (List.mem_of_mem_getLast? hl)

/-- An AST node whose final child (in iteration order) carries no line
number while an earlier child does: a `def`-declaration line 1 whose body
ends in a statement carrying a sub-node without a `lineno`
(e.g. a comprehension), transcribed minimally. -/
def lastNoLinenoNode : PyNode :=
  .node (some 1) [.node (some 2) [], .node none []]

/-- Counterexample to C4 as stated: on `lastNoLinenoNode` the code returns
the node's own starting line 1, while descending into the last child that
carries a line number (the spec's rule) reaches line 2. -/
theorem find_node_end_counterexample :
    findNodeEnd lastNoLinenoNode = 1 ∧ specNodeEnd lastNoLinenoNode = 2 ∧
    ¬ findNodeEnd lastNoLinenoNode = specNodeEnd lastNoLinenoNode := by
  have h1 : findNodeEnd lastNoLinenoNode = 1 := by
    rw [lastNoLinenoNode, findNodeEnd_node]
    rfl
  have h2 : specNodeEnd lastNoLinenoNode = 2 := by
    rw [lastNoLinenoNode, specNodeEnd_node]
    show specNodeEnd (.node (some 2) []) = 2
    rw [specNodeEnd_node]
    rfl
  exact ⟨h1, h2, by rw [h1, h2]; decide⟩

/-- C4 amended: the computed last line follows the spec's rule — descend
into the last line-bearing child repeatedly — only on nodes in which,
hereditarily, a non-empty child list's final child carries a line number;
whenever a node's final child in iteration order carries no line number,
the code instead returns that node's own starting line, even if an earlier
child carries one. -/
theorem find_node_end_last_child_rule :
    (∀ n : PyNode, lastChildOk n = true → findNodeEnd n = specNodeEnd n) ∧
    (∀ (ln : Option Nat) (cs : List PyNode) (c : PyNode),
      cs.getLast? = some c → hasLineno c = false →
      findNodeEnd (.node ln cs) = ln.getD 0) := by
  constructor
  · intro n hok
    exact findNodeEnd_eq_specNodeEnd_aux (sizeOf n) n le_rfl hok
  · intro ln cs c hl hc
    rw [findNodeEnd_node, hl]
    show (if hasLineno c then findNodeEnd c else ln.getD 0) = ln.getD 0
    rw [hc]
    rfl

/-- Witness for the amended C4: a well-behaved two-level node, and a node
whose final child lacks a line number. -/
theorem find_node_end_last_child_rule_witness :
    (lastChildOk (PyNode.node (some 3) [PyNode.node (some 4) []]) = true ∧
     findNodeEnd (PyNode.node (some 3) [PyNode.node (some 4) []]) =
       specNodeEnd (PyNode.node (some 3) [PyNode.node (some 4) []])) ∧
    (([PyNode.node (some 8) [], PyNode.node none []].getLast? =
        some (PyNode.node none []) ∧
      hasLineno (PyNode.node none []) = false) ∧
     findNodeEnd (PyNode.node (some 9)
        [PyNode.node (some 8) [], PyNode.node none []]) = 9) := by
  have hok : lastChildOk (PyNode.node (some 3) [PyNode.node (some 4) []]) = true := by
    rw [lastChildOk_node]
    show (hasLineno (PyNode.node (some 4) []) &&
      (lastChildOk (PyNode.node (some 4) []) && true)) = true
    rw [lastChildOk_node]
    rfl
  exact ⟨⟨hok, find_node_end_last_child_rule.1 _ hok⟩,
    ⟨⟨rfl, rfl⟩, find_node_end_last_child_rule.2 (some 9) _ _ rfl rfl⟩⟩


/-! ## Claim C5: line spans of produced entities -/

/-- All-children form of the `monotoneFrom` equation. -/
theorem monotoneFrom_node (b : Nat) (ln : Option Nat) (cs : List PyNode) :
    monotoneFrom b (.node ln cs) =
      cs.all (fun c =>
        match linenoOf c with
        | some l => decide (b ≤ l) && monotoneFrom l c
        | none => monotoneFrom b c) := by
  rw [monotoneFrom]
  simp only [childrenOf]
  rw [Bool.eq_iff_iff]
  simp only [List.all_eq_true, List.mem_attach, true_implies, Subtype.forall]

theorem findNodeEnd_ge_aux : ∀ (k : Nat) (n : PyNode) (b m : Nat), sizeOf n ≤ k →
    linenoOf n = some m → b ≤ m → monotoneFrom m n = true → b ≤ findNodeEnd n := by
  intro k
  induction k with
  | zero =>
    intro n b m hn
    exfalso
    cases n with
    | node ln cs =>
      have : 0 < sizeOf (PyNode.node ln cs) := by cases ln <;> simp
      omega
  | succ k ih =>
    intro n b m hn hln hbm hmono
    cases n with
    | node ln cs =>
      have hlneq : ln = some m := by simpa [linenoOf] using hln
      subst hlneq
      rw [monotoneFrom_node] at hmono
      rw [findNodeEnd_node]
      cases hl : cs.getLast? with
      | none => simpa using hbm
      | some c =>
        show (if hasLineno c = true then findNodeEnd c else (some m).getD 0) ≥ b
        by_cases hcl : hasLineno c = true
        · rw [if_pos hcl]
          have hcmem : c ∈ cs := List.mem_of_mem_getLast? hl
          have hc := List.all_eq_true.mp hmono c hcmem
          cases hcn : linenoOf c with
          | none => rw [hasLineno, hcn] at hcl; cases hcl
          | some l =>
            rw [hcn] at hc
            simp only [Bool.and_eq_true, decide_eq_true_eq] at hc
            obtain ⟨hml, hcm⟩ := hc
            have hsz : sizeOf c ≤ k := by
              have h2 := List.sizeOf_lt_of_mem hcmem
              have h3 : sizeOf cs < sizeOf (PyNode.node (some m) cs) := by simp
              omega
            have := ih c l l hsz hcn le_rfl hcm
            omega
        · rw [if_neg hcl]
          simpa using hbm

theorem splitOnChar_ne_nil (sep : Char) : ∀ l : List Char, splitOnChar sep l ≠ []
  | [] => by simp [splitOnChar]
  | c :: rest => by
    unfold splitOnChar
    cases h : splitOnChar sep rest with
    | nil => simp
    | cons cur others => by_cases hc : c = sep <;> simp [hc]

theorem splitlines_length_pos {s : String} (h : s ≠ "") :
    1 ≤ (splitlines s).length := by
  obtain ⟨data⟩ := s
  cases data with
  | nil => exact absurd rfl h
  | cons c rest =>
    unfold splitlines strSplitOn
    cases hsp : splitOnChar '\n' rest with
    | nil => exact absurd hsp (splitOnChar_ne_nil '\n' rest)
    | cons cur others =>
      show 1 ≤ (let parts := (splitOnChar '\n' (String.mk (c :: rest)).data).map String.mk
        ; if parts.getLast? = some "" then parts.dropLast else parts).length
      have hstep : splitOnChar '\n' (String.mk (c :: rest)).data =
          if c = '\n' then [] :: cur :: others else (c :: cur) :: others := by
        show splitOnChar '\n' (c :: rest) = _
        unfold splitOnChar
        rw [hsp]
      rw [hstep]
      by_cases hc : c = '\n'
      · rw [if_pos hc]
        simp only [List.map_cons, List.length_map]
        split
        · simp
        · simp
      · rw [if_neg hc]
        simp only [List.map_cons]
        cases others with
        | nil =>
          split
          · rename_i hlast
            exfalso
            simp only [List.map_nil, List.getLast?_singleton, Option.some.injEq] at hlast
            have : (c :: cur) = ([] : List Char) := congrArg String.data hlast
            cases this
          · simp
        | cons o os =>
          split
          · simp
          · simp

/-- A function declaration node with no children, starting at line 2 — the
shape of `def f(): ...` condensed to the fields the span algorithm reads. -/
def tinyFunc : PyFunc :=
  { name := "f", lineno := 2, docstring := none, args := [], returns := none,
    childNodes := [] }

/-- A class declaration node with no children, starting at line 3. -/
def tinyClass : PyClass :=
  { name := "K", lineno := 3, docstring := none, bases := [], body := [],
    childNodes := [] }

/-- A one-line file defining nothing, used by the C5 witness. -/
def oneLineFile : PyFile := ⟨"one.py", "x = 1", some ⟨none, []⟩⟩

/-- Counterexample to C5 as stated: the module entity produced for an
empty file has `line_start = 1` and `line_end = 0` (the line count of the
empty content), so `line_start ≤ line_end` fails for an entity produced by
an index pass. -/
theorem entity_line_spans_counterexample :
    ((dictGet (indexFile initialState freshFile).all_entities "m").map
      (fun e => (e.line_start, e.line_end))) = some (1, 0) ∧
    ¬ (1 : Nat) ≤ 0 := by
  exact ⟨rfl, by decide⟩

/-- C5 amended: a module entity always has `line_start = 1` and `line_end`
equal to the line count of the file content, so its span is well-ordered
exactly when the content is non-empty (the module entity of an empty file
has `line_end = 0 < 1 = line_start`); a function or class entity satisfies
`line_start ≤ line_end` whenever its declaration node is line-monotone
(every line-bearing descendant starts no earlier than the line of its
nearest line-bearing ancestor), which holds for undecorated declarations. -/
theorem entity_line_spans (st : IndexerState) (f : PyFile) (m : PyModule)
    (fn : PyFunc) (c : PyClass) (relPath content : String)
    (hp : f.parsed = some m) :
    (∃ ent, dictGet (indexFile st f).modules (splitextRoot (pathBasename f.path)) =
        some ent ∧
      ent.line_start = 1 ∧ ent.line_end = (splitlines f.content).length ∧
      (f.content ≠ "" → ent.line_start ≤ ent.line_end)) ∧
    (monotoneFrom fn.lineno (funcNode fn) = true →
      (processFunction fn relPath content).line_start ≤
        (processFunction fn relPath content).line_end) ∧
    (monotoneFrom c.lineno (classNode c) = true →
      (processClass c relPath content st.all_entities).1.line_start ≤
        (processClass c relPath content st.all_entities).1.line_end) := by
  refine ⟨?_, ?_, ?_⟩
  · unfold indexFile
    rw [hp]
    refine ⟨_, dictGet_insert_self _ _ _, rfl, rfl, ?_⟩
    intro hne
    show 1 ≤ (splitlines f.content).length
    exact splitlines_length_pos hne
  · intro hmono
    show fn.lineno ≤ findNodeEnd (funcNode fn)
    exact findNodeEnd_ge_aux (sizeOf (funcNode fn)) (funcNode fn) fn.lineno fn.lineno
      le_rfl rfl le_rfl hmono
  · intro hmono
    show c.lineno ≤ findNodeEnd (classNode c)
    exact findNodeEnd_ge_aux (sizeOf (classNode c)) (classNode c) c.lineno c.lineno
      le_rfl rfl le_rfl hmono

/-- Witness for the amended C5 on a one-line file, a childless function
node and a childless class node. -/
theorem entity_line_spans_witness :
    oneLineFile.parsed = some ⟨none, []⟩ ∧
    ((∃ ent, dictGet (indexFile initialState oneLineFile).modules
        (splitextRoot (pathBasename oneLineFile.path)) = some ent ∧
      ent.line_start = 1 ∧ ent.line_end = (splitlines oneLineFile.content).length ∧
      (oneLineFile.content ≠ "" → ent.line_start ≤ ent.line_end)) ∧
     (monotoneFrom tinyFunc.lineno (funcNode tinyFunc) = true →
      (processFunction tinyFunc "one.py" "x = 1").line_start ≤
        (processFunction tinyFunc "one.py" "x = 1").line_end) ∧
     (monotoneFrom tinyClass.lineno (classNode tinyClass) = true →
      (processClass tinyClass "one.py" "x = 1" initialState.all_entities).1.line_start ≤
        (processClass tinyClass "one.py" "x = 1" initialState.all_entities).1.line_end)) ∧
    (monotoneFrom tinyFunc.lineno (funcNode tinyFunc) = true ∧
     monotoneFrom tinyClass.lineno (classNode tinyClass) = true) := by
  have hmf : monotoneFrom tinyFunc.lineno (funcNode tinyFunc) = true := by
    rw [funcNode, monotoneFrom_node]; rfl
  have hmc : monotoneFrom tinyClass.lineno (classNode tinyClass) = true := by
    rw [classNode, monotoneFrom_node]; rfl
  exact ⟨rfl, entity_line_spans initialState oneLineFile ⟨none, []⟩ tinyFunc tinyClass
    "one.py" "x = 1" rfl, hmf, hmc⟩


/-! ## Claim C1: default exclude patterns discover no files at all -/

theorem rmatch_nil_terms (s : List Char) : rmatch [] s = true := by
  rw [rmatch.eq_def]

theorem rmatch_once_cons (a : RAtom) (ts : List RTerm) (c : Char) (s : List Char) :
    rmatch (.once a :: ts) (c :: s) = (atomMatch a c && rmatch ts s) := by
  rw [rmatch.eq_def]

theorem rmatch_star_any (s : List Char) :
    rmatch [RTerm.star RAtom.anyChar] s = true := by
  rw [rmatch.eq_def]
  cases s with
  | nil =>
    show (rmatch [] ([] : List Char) || false) = true
    rw [rmatch_nil_terms]
    rfl
  | cons c rest =>
    show (rmatch [] (c :: rest) ||
      (atomMatch RAtom.anyChar c && rmatch [RTerm.star RAtom.anyChar] rest)) = true
    rw [rmatch_nil_terms]
    rfl

/-- The default pattern `".*"`, translated to the regex `"..*"`, matches
(as an anchored prefix match) every string whose first character is not a
newline. -/
theorem dotStar_matches {c : Char} (hc : c ≠ '\n') (rest : List Char) :
    matchesPattern ".*" (String.mk (c :: rest)) = true := by
  show rmatch (parseRegex (translatePattern ".*").data) (c :: rest) = true
  have hterms : parseRegex (translatePattern ".*").data =
      [.once .anyChar, .star .anyChar] := rfl
  rw [hterms, rmatch_once_cons, rmatch_star_any]
  simp [atomMatch, hc]

theorem default_excluded (c : Char) (rest : List Char) (hc : c ≠ '\n') :
    excludedBy defaultExcludePatterns (String.mk (c :: rest)) = true := by
  unfold excludedBy
  apply List.any_eq_true.mpr
  refine ⟨".*", ?_, dotStar_matches hc rest⟩
  unfold defaultExcludePatterns
  simp

/-- Basenames whose first character is not a newline (every sane file
name); Python regex `.` does not match a newline, so a name starting
with one escapes the default `".*"` pattern. -/
def fileNameOk (f : PyFile) : Bool :=
  match (pathBasename f.path).data with
  | [] => true
  | c :: _ => c ≠ '\n'

theorem string_eta (s : String) : String.mk s.data = s := rfl

theorem default_file_pred_false (f : PyFile) (hok : fileNameOk f = true) :
    (strEndsWith (pathBasename f.path) ".py" &&
      !excludedBy defaultExcludePatterns (pathBasename f.path)) = false := by
  by_cases he : strEndsWith (pathBasename f.path) ".py"
  · cases hb : (pathBasename f.path).data with
    | nil =>
      exfalso
      unfold strEndsWith at he
      rw [hb] at he
      cases he
    | cons c rest =>
      have hc : c ≠ '\n' := by
        unfold fileNameOk at hok
        rw [hb] at hok
        simpa using hok
      have hex : excludedBy defaultExcludePatterns (pathBasename f.path) = true := by
        rw [← string_eta (pathBasename f.path), hb]
        exact default_excluded c rest hc
      rw [hex]
      simp
  · simp only [Bool.and_eq_false_iff]
    left
    simpa using he

mutual
theorem findPythonFiles_default_nil : ∀ (t : FSTree),
    (∀ f ∈ allTreeFiles t, fileNameOk f = true) →
    findPythonFiles defaultExcludePatterns t = []
  | .dir n files subdirs, h => by
    have hwalk : walkSubdirs defaultExcludePatterns subdirs = [] := by
      apply walkSubdirs_default_nil subdirs
      intro f hf
      apply h
      unfold allTreeFiles
      exact List.mem_append_right _ hf
    have hfilter : files.filter (fun f =>
        strEndsWith (pathBasename f.path) ".py" &&
          !excludedBy defaultExcludePatterns (pathBasename f.path)) = [] := by
      apply List.filter_eq_nil_iff.mpr
      intro f hf
      have hok : fileNameOk f = true := by
        apply h
        unfold allTreeFiles
        exact List.mem_append_left _ hf
      simp [default_file_pred_false f hok]
    unfold findPythonFiles
    rw [hfilter, hwalk]
    rfl
theorem walkSubdirs_default_nil : ∀ (fs : FSForest),
    (∀ f ∈ allForestFiles fs, fileNameOk f = true) →
    walkSubdirs defaultExcludePatterns fs = []
  | .leaf, _ => rfl
  | .branch d rest, h => by
    have hrest : walkSubdirs defaultExcludePatterns rest = [] := by
      apply walkSubdirs_default_nil rest
      intro f hf
      apply h
      unfold allForestFiles
      exact List.mem_append_right _ hf
    have hd : findPythonFiles defaultExcludePatterns d = [] := by
      apply findPythonFiles_default_nil d
      intro f hf
      apply h
      unfold allForestFiles
      exact List.mem_append_left _ hf
    unfold walkSubdirs
    rw [hrest, List.append_nil]
    split
    · rfl
    · exact hd
end

/-- C1: a `CodeIndexer` constructed without explicit exclude patterns
falls back to the defaults, whose pattern `".*"` becomes the regex `"..*"`
after `'*'`-replacement and, matched with `re.match` against basenames,
matches every non-empty basename (not beginning with a newline, which
Python's `.` wildcard excludes).  Every subdirectory is pruned and every
`.py` file is excluded, so discovery returns no files and `index_codebase`
leaves the entity index empty. -/
theorem default_patterns_discover_nothing (t : FSTree)
    (h : ∀ f ∈ allTreeFiles t, fileNameOk f = true) :
    findPythonFiles (initExcludePatterns none) t = [] ∧
    (runIndexer none t).all_entities = [] := by
  have h1 : findPythonFiles (initExcludePatterns none) t = [] :=
    findPythonFiles_default_nil t h
  refine ⟨h1, ?_⟩
  show (indexCodebase initialState (findPythonFiles (initExcludePatterns none) t)).all_entities = []
  rw [h1]
  rfl

/-- Witness for C1: a two-level tree holding ordinary `.py` files. -/
theorem default_patterns_discover_nothing_witness :
    (∀ f ∈ allTreeFiles
      (FSTree.dir "root" [oneLineFile]
        (.branch (.dir "pkg" [freshFile] .leaf) .leaf)), fileNameOk f = true) ∧
    (findPythonFiles (initExcludePatterns none)
      (FSTree.dir "root" [oneLineFile]
        (.branch (.dir "pkg" [freshFile] .leaf) .leaf)) = [] ∧
     (runIndexer none
      (FSTree.dir "root" [oneLineFile]
        (.branch (.dir "pkg" [freshFile] .leaf) .leaf))).all_entities = []) := by
  have hfiles : allTreeFiles
      (FSTree.dir "root" [oneLineFile]
        (.branch (.dir "pkg" [freshFile] .leaf) .leaf)) =
      [oneLineFile, freshFile] := rfl
  have h : ∀ f ∈ allTreeFiles
      (FSTree.dir "root" [oneLineFile]
        (.branch (.dir "pkg" [freshFile] .leaf) .leaf)), fileNameOk f = true := by
    rw [hfiles]
    decide
  exact ⟨h, default_patterns_discover_nothing _ h⟩


end GitbookMcp
